import Mathlib

/-!
Shallow embedding of the chunked-encoding core of the `reel` AV1 transcoder
(Go sources under `internal/chunk`, `internal/encode`, `internal/processing`),
together with theorems settling the specification claims about it.

Go strings are modelled as `List Char` (all data in scope is ASCII), Go `int`
as `Int`, Go `uint64` as `Nat`.  Where the Go code converts through `float64`
(the 0.70 memory fraction, the 0.8 crop-dominance ratio) the embedding uses
exact rational arithmetic (`* 7 / 10`, `* 5 > * 4`); the spec states those
constants exactly, and no claim in scope examines float rounding at the
representation boundary.
-/

namespace Reel

/-! ## Character and string helpers (Go `strings` / `strconv` fragments) -/

/-- Embedding of `unicode.IsSpace` restricted to ASCII (code points for
`' '`, `'\t'`, `'\n'`, `'\r'`, vertical tab, form feed), as used by
`strings.TrimSpace` and `strings.Fields` on resume-log lines. -/
def goIsSpace (c : Char) : Bool :=
  c.toNat = 32 || c.toNat = 9 || c.toNat = 10 || c.toNat = 13 || c.toNat = 11 || c.toNat = 12

/-- Decimal digit test (`'0' <= c && c <= '9'`, code points 48-57), as in
`strconv` parsing. -/
def goIsDigit (c : Char) : Bool :=
  48 ≤ c.toNat && c.toNat ≤ 57

/-- Worker for `goFields`: `acc` holds the current word reversed. -/
def goFieldsAux : List Char → List Char → List (List Char)
  | [], acc => if acc = [] then [] else [acc.reverse]
  | c :: cs, acc =>
    if goIsSpace c then
      if acc = [] then goFieldsAux cs [] else acc.reverse :: goFieldsAux cs []
    else
      goFieldsAux cs (c :: acc)

/-- Embedding of Go `strings.Fields`: split around maximal runs of
whitespace, dropping empty words. -/
def goFields (cs : List Char) : List (List Char) :=
  goFieldsAux cs []

/-- Worker for `goSplitOn`: `acc` holds the current token reversed. -/
def goSplitOnAux (sep : Char) : List Char → List Char → List (List Char)
  | [], acc => [acc.reverse]
  | c :: cs, acc =>
    if c = sep then acc.reverse :: goSplitOnAux sep cs []
    else goSplitOnAux sep cs (c :: acc)

/-- Embedding of Go `strings.Split` with a single-character separator
(the code only splits on `":"` and on line breaks). -/
def goSplitOn (sep : Char) (cs : List Char) : List (List Char) :=
  goSplitOnAux sep cs []

/-- Embedding of Go `strings.TrimSpace` (ASCII fragment). -/
def goTrimSpace (cs : List Char) : List Char :=
  ((cs.dropWhile goIsSpace).reverse.dropWhile goIsSpace).reverse

/-- Numeric value of a decimal digit character. -/
def digitVal (c : Char) : Nat := c.toNat - 48

/-- Value of a list of decimal digit characters, most significant first,
exactly as `strconv`'s parse loop accumulates it. -/
def decimalVal (cs : List Char) : Nat :=
  cs.foldl (fun acc c => acc * 10 + digitVal c) 0

/-- Embedding of Go `strconv.ParseUint(s, 10, bits)`: a nonempty all-digit
string whose value fits in `bits` bits; anything else is an error. -/
def goParseUint (bits : Nat) (cs : List Char) : Option Nat :=
  if cs ≠ [] ∧ cs.all goIsDigit then
    let v := decimalVal cs
    if v < 2 ^ bits then some v else none
  else none

/-- Embedding of Go `strconv.Atoi` (= `ParseInt(s, 10, 0)` on a 64-bit host):
an optional sign followed by digits, value within `int64` range. -/
def goAtoi (cs : List Char) : Option Int :=
  match cs with
  | [] => none
  | c :: rest =>
    if c = '-' then
      match goParseUint 64 rest with
      | some v => if v ≤ 2 ^ 63 then some (-(v : Int)) else none
      | none => none
    else
      match goParseUint 64 (if c = '+' then rest else c :: rest) with
      | some v => if v < 2 ^ 63 then some (v : Int) else none
      | none => none

/-- Decimal rendering of a natural number, as Go `fmt.Fprintf("%d", ·)`
prints a non-negative integer. -/
def natToDecimal (n : Nat) : List Char :=
  if n = 0 then ['0'] else (Nat.digits 10 n).reverse.map Nat.digitChar

/-- Decimal rendering of a Go `int` under `%d` (sign then digits). -/
def intToDecimal (i : Int) : List Char :=
  if i < 0 then '-' :: natToDecimal i.natAbs else natToDecimal i.toNat

/-! ## `internal/chunk/chunk.go` -/

/-- `Scene` from `chunk.go`: a detected scene `[StartFrame, EndFrame)`. -/
structure Scene where
  startFrame : Int
  endFrame : Int
deriving DecidableEq, Repr

/-- `Chunk` from `chunk.go`: `(Idx, Start, End)` with `Start` inclusive and
`End` exclusive. -/
structure Chunk where
  idx : Int
  start : Int
  stop : Int
deriving DecidableEq, Repr

/-- `Chunk.Frames`: the number of frames in the chunk, `End - Start`. -/
def Chunk.frames (c : Chunk) : Int := c.stop - c.start

/-- `ChunkComp` from `chunk.go`: one completed chunk's record
`(Idx, Frames, Size)`; `Size` is a Go `uint64`. -/
structure ChunkComp where
  idx : Int
  frames : Int
  size : Nat
deriving DecidableEq, Repr

/-- The scene-building loop of `LoadScenes` (`chunk.go` lines 81-95): for
each sorted frame number, the scene runs to the next number (or to
`totalFrames` for the last one) and is kept only if nonempty. -/
def buildScenes : List Int → Int → List Scene
  | [], _ => []
  | [a], totalFrames => if a < totalFrames then [⟨a, totalFrames⟩] else []
  | a :: b :: rest, totalFrames =>
    (if a < b then [⟨a, b⟩] else []) ++ buildScenes (b :: rest) totalFrames

/-- `LoadScenes` (`chunk.go`), from the parsed frame numbers onward: sort
(`sort.Ints`), prepend `0` when the list is empty or does not start at `0`,
then build scenes.  The file-reading and `Atoi` front end yields the
`frameNums` list. -/
def loadScenes (frameNums : List Int) (totalFrames : Int) : List Scene :=
  let sorted := List.insertionSort (· ≤ ·) frameNums
  let nums := if sorted.head? = some 0 then sorted else 0 :: sorted
  buildScenes nums totalFrames

/-- The indexed loop of `Chunkify`: scene `i` becomes chunk `i`, counting
from `k`. -/
def chunkifyFrom (k : Nat) : List Scene → List Chunk
  | [] => []
  | s :: rest => ⟨(k : Int), s.startFrame, s.endFrame⟩ :: chunkifyFrom (k + 1) rest

/-- `Chunkify` (`chunk.go`): each scene becomes one chunk, indices `0..N-1`. -/
def chunkify (scenes : List Scene) : List Chunk :=
  chunkifyFrom 0 scenes

/-- A scene list tiles `[a, totalFrames)` contiguously with nonempty
scenes: used to state the C2 partition invariant. -/
def sceneChain (a totalFrames : Int) : List Scene → Prop
  | [] => a = totalFrames
  | s :: rest => s.startFrame = a ∧ a < s.endFrame ∧ sceneChain s.endFrame totalFrames rest

/-- A chunk list tiles `[a, totalFrames)` contiguously with nonempty chunks
carrying consecutive indices from `k`. -/
def chunkChainFrom (k : Nat) (a totalFrames : Int) : List Chunk → Prop
  | [] => a = totalFrames
  | c :: rest =>
    c.idx = (k : Int) ∧ c.start = a ∧ a < c.stop ∧ chunkChainFrom (k + 1) c.stop totalFrames rest

/-- The line `AppendDone` writes for one completed chunk:
`fmt.Fprintf(file, "%d %d %d\n", chunk.Idx, chunk.Frames, chunk.Size)`. -/
def appendDoneLine (c : ChunkComp) : List Char :=
  intToDecimal c.idx ++ ' ' :: intToDecimal c.frames ++ ' ' :: natToDecimal c.size ++ ['\n']

/-- One iteration of `GetResume`'s scanner loop on a raw line: trim, skip
empty, require exactly three fields, parse `Atoi`, `Atoi`,
`ParseUint(·, 10, 64)`; any failure skips the line. -/
def parseDoneLine (raw : List Char) : Option ChunkComp :=
  let line := goTrimSpace raw
  if line = [] then none
  else
    match goFields line with
    | [p0, p1, p2] =>
      match goAtoi p0, goAtoi p1, goParseUint 64 p2 with
      | some i, some f, some s => some ⟨i, f, s⟩
      | _, _, _ => none
    | _ => none

/-- `GetResume` (`chunk.go`) applied to the contents of `done.txt`: every
well-formed line contributes one `ChunkComp`; malformed lines are skipped. -/
def getResume (content : List Char) : List ChunkComp :=
  (goSplitOn '\n' content).filterMap parseDoneLine

/-- `ResumeInf.DoneSet` (`chunk.go` lines 215-222) as a membership test:
`idx` is done iff some parsed record carries it. -/
def doneSet (done : List ChunkComp) (idx : Int) : Bool :=
  done.any fun e => e.idx == idx

/-- `ResumeInf.TotalEncodedFrames`: sum of the `Frames` fields. -/
def totalEncodedFrames (done : List ChunkComp) : Int :=
  (done.map ChunkComp.frames).sum

/-- `ResumeInf.TotalEncodedSize`: sum of the `Size` fields, accumulated in
a Go `uint64`, which wraps modulo `2^64` (folding wrapping additions of the
records' sizes equals the plain sum reduced modulo `2^64`). -/
def totalEncodedSize (done : List ChunkComp) : Nat :=
  (done.map ChunkComp.size).sum % 2 ^ 64

/-! ## `internal/encode/permits.go` -/

/-- `memoryPerWorker`: estimated bytes per worker by resolution class
(`5 << 30`, `2 << 30`, `512 << 20`). -/
def memoryPerWorker (width height : Nat) : Nat :=
  if width ≥ 3840 ∨ height ≥ 2160 then 5 * 2 ^ 30
  else if width ≥ 1920 ∨ height ≥ 1080 then 2 * 2 ^ 30
  else 512 * 2 ^ 20

/-- Finds the least `k` at or above the accumulator with `N < 2^(53+k)`
(bounded search; the fuel of 128 covers every product of two `uint64`-range
mantissas). -/
def excessSearch (N : Nat) : Nat → Nat → Nat
  | 0, k => k
  | fuel + 1, k => if N < 2 ^ (53 + k) then k else excessSearch N fuel (k + 1)

/-- Round the integer `N` to 53 significant bits with IEEE round-to-nearest,
ties-to-even — the rounding a positive integer value undergoes when it
enters `float64` arithmetic (exact below `2^53`).  Stated at integer scale:
the result is the numerator of the rounded value over the same power of
two. -/
def roundTo53 (N : Nat) : Nat :=
  if N < 2 ^ 53 then N
  else
    let s := excessSearch N 128 0
    let q := N / 2 ^ s
    let r := N % 2 ^ s
    let q2 :=
      if 2 * r < 2 ^ s then q
      else if 2 ^ s < 2 * r then q + 1
      else if q % 2 = 0 then q else q + 1
    q2 * 2 ^ s

/-- `uint64(float64(available) * MemoryFraction)` computed exactly:
`float64(available)` rounds the reading to 53 significant bits, the
`float64` constant `0.7` is exactly `6305039478318694 / 2^53`, the product
rounds again to 53 significant bits, and the conversion back to `uint64`
truncates toward zero. -/
def goUsableMemory (available : Nat) : Nat :=
  roundTo53 (roundTo53 available * 6305039478318694) / 2 ^ 53

/-- `CapWorkers`: cap the requested worker count by available memory.  The
host reading `util.AvailableMemoryBytes()` is passed in as `available`;
`uint64(float64(available) * 0.7)` is embedded exactly (with IEEE double
rounding) by `goUsableMemory`.  Returns `(actualWorkers, wasCapped)`. -/
def capWorkers (requested : Int) (width height : Nat) (available : Nat) : Int × Bool :=
  let memPerWorker := memoryPerWorker width height
  let maxByMemory : Int :=
    if 0 < available then
      let usable : Nat := goUsableMemory available
      max ((usable / memPerWorker : Nat) : Int) 1
    else requested
  if requested > maxByMemory then (maxByMemory, true) else (requested, false)

/-- `CalculatePermits`: `max(workers + buffer, 1)`. -/
def calculatePermits (workers buffer : Int) : Int :=
  max (workers + buffer) 1

/-! ## The parallel encode pipeline (`encode.go`, package `encode`) -/

/-- `calculateThreadsPerWorker` (`encode.go`): physical-core share plus an
SMT bonus, clamped to a resolution-dependent maximum.  The host readings
`util.PhysicalCores()` / `util.LogicalCores()` are passed in. -/
def calculateThreadsPerWorker (workers physical logical : Int) (width : Nat) : Int :=
  if workers ≤ 0 then 1
  else
    let maxThreads : Int := if width ≥ 3840 then 16 else if width ≥ 1920 then 10 else 6
    let base := physical / workers
    let threadsPerWorker :=
      if logical > physical ∧ base < maxThreads then base + 1 else base
    max 1 (min threadsPerWorker maxThreads)

/-- `worker.EncodeResult` as used by `encode.go`: chunk index, frames and
output size on success, or an error.  Error values are modelled as strings. -/
structure EncodeResult where
  chunkIdx : Int
  frames : Int
  size : Nat
  error : Option String
deriving DecidableEq, Repr

/-- `worker.Progress` as initialized and updated by `EncodeAll`
(`encode.go` lines 113-120 and 156-160).  The struct carries totals for
chunks and frames only; no total exists for bytes. -/
structure Progress where
  chunksTotal : Int
  chunksComplete : Int
  framesTotal : Int
  framesComplete : Int
  bytesComplete : Nat
deriving DecidableEq, Repr

/-- The resume filter of `EncodeAll` (lines 67-74): keep exactly the chunks
whose index is not in the done set. -/
def remainingChunks (chunks : List Chunk) (done : List ChunkComp) : List Chunk :=
  chunks.filter fun ch => !(doneSet done ch.idx)

/-- The `Progress` value `EncodeAll` starts from (lines 113-120): totals
over all planned chunks, completions seeded from the resume log. -/
def initProgress (chunks : List Chunk) (done : List ChunkComp) : Progress :=
  { chunksTotal := (chunks.length : Int)
    chunksComplete := (chunks.length : Int) - ((remainingChunks chunks done).length : Int)
    framesTotal := (chunks.map Chunk.frames).sum
    framesComplete := totalEncodedFrames done
    bytesComplete := totalEncodedSize done }

/-- The error slot's `CompareAndSwap(nil, &err)` in `setError`: only the
first stored error survives. -/
def latch (slot : Option String) (e : String) : Option String :=
  match slot with
  | none => some e
  | some e0 => some e0

/-- One iteration of the result collector (lines 149-176): a failing result
is latched into the error slot; a successful one bumps the progress
counters (`BytesComplete` is a Go `uint64`, so its addition wraps modulo
`2^64`) and is appended to `done.txt`. -/
def collectStep (st : Progress × Option String) (r : EncodeResult) : Progress × Option String :=
  match r.error with
  | some e => (st.1, latch st.2 e)
  | none =>
    ({ st.1 with
        chunksComplete := st.1.chunksComplete + 1
        framesComplete := st.1.framesComplete + r.frames
        bytesComplete := (st.1.bytesComplete + r.size) % 2 ^ 64 }, st.2)

/-- The collector loop over the sequence of results it receives, starting
from the initial progress and an empty error slot.  `EncodeAll` returns the
second component (`getError()`) to its caller. -/
def runCollector (chunks : List Chunk) (done : List ChunkComp)
    (results : List EncodeResult) : Progress × Option String :=
  results.foldl collectStep (initProgress chunks done, none)

/-- Componentwise order on the progress counters
`(chunks_done, frames_done, bytes_done)`. -/
def Progress.le (p q : Progress) : Prop :=
  p.chunksComplete ≤ q.chunksComplete ∧ p.framesComplete ≤ q.framesComplete ∧
    p.bytesComplete ≤ q.bytesComplete

/-- The successful results among those the collector receives. -/
def successes (results : List EncodeResult) : List EncodeResult :=
  results.filter fun r => r.error.isNone

/-! ## `internal/processing/crop.go` -/

/-- A crop rectangle `w:h:x:y` as validated by `isValidCropFormat` (four
decimal `uint32` fields). -/
structure Rect where
  w : Nat
  h : Nat
  x : Nat
  y : Nat
deriving DecidableEq, Repr

/-- `isEffectiveCrop` on a well-formed rectangle string: the crop removes
pixels iff its dimensions differ from the source's. -/
def isEffectiveCrop (r : Rect) (sourceWidth sourceHeight : Nat) : Bool :=
  r.w != sourceWidth || r.h != sourceHeight

/-- The decision produced by `DetectCrop`: the chosen rectangle (if any),
the `Required` flag and the `MultipleRatios` flag. -/
structure CropDecision where
  crop : Option Rect
  required : Bool
  multipleRatios : Bool
deriving DecidableEq, Repr

/-- The `sorted[0]` element after `DetectCrop` sorts entries by descending
count: an entry of maximal count (`sort.Slice` leaves ties unordered; the
pipeline only inspects the rectangle when its share is dominant, where the
maximum is unique). -/
def argmaxCount : List (Rect × Nat) → Rect × Nat
  | [] => (⟨0, 0, 0, 0⟩, 0)
  | p :: rest => rest.foldl (fun best q => if best.2 < q.2 then q else best) p

/-- The aggregation tail of `DetectCrop` (lines 84-147), applied to the
per-rectangle sample counts `cropCounts` (a map: distinct rectangles,
positive counts).  `float64(count)/float64(total) > 0.8` is embedded
exactly as `total * 4 < count * 5`. -/
def detectCropAgg (counts : List (Rect × Nat)) (sourceWidth sourceHeight : Nat) :
    CropDecision :=
  match counts with
  | [] => ⟨none, false, false⟩
  | [(r, _)] =>
    if isEffectiveCrop r sourceWidth sourceHeight then ⟨some r, true, false⟩
    else ⟨none, false, false⟩
  | _ :: _ :: _ =>
    let totalSamples := (counts.map Prod.snd).sum
    let mostCommon := argmaxCount counts
    if totalSamples * 4 < mostCommon.2 * 5 then
      if isEffectiveCrop mostCommon.1 sourceWidth sourceHeight then
        ⟨some mostCommon.1, true, false⟩
      else ⟨none, false, false⟩
    else ⟨none, false, true⟩

/-- `strings.TrimPrefix(cropFilter, "crop=")`. -/
def trimCropPrefix (cs : List Char) : List Char :=
  if cs.take 5 = ['c', 'r', 'o', 'p', '='] then cs.drop 5 else cs

/-- `GetOutputDimensions` (`crop.go` lines 239-258): final output
dimensions after an optional crop filter string. -/
def getOutputDimensions (originalWidth originalHeight : Nat) (cropFilter : List Char) :
    Nat × Nat :=
  if cropFilter = [] then (originalWidth, originalHeight)
  else
    let params := trimCropPrefix cropFilter
    match goSplitOn ':' params with
    | p0 :: p1 :: _ =>
      match goParseUint 32 p0, goParseUint 32 p1 with
      | some width, some height => (width, height)
      | _, _ => (originalWidth, originalHeight)
    | _ => (originalWidth, originalHeight)

/-- Spec reading of the crop-filter fields, for comparison with
`getOutputDimensions`: the first two colon-separated fields after the
optional `crop=` prefix, provided the string is nonempty and both fields
parse as unsigned 32-bit integers. -/
def cropFilterWH (cropFilter : List Char) : Option (Nat × Nat) :=
  if cropFilter = [] then none
  else
    match goSplitOn ':' (trimCropPrefix cropFilter) with
    | p0 :: p1 :: _ =>
      match goParseUint 32 p0, goParseUint 32 p1 with
      | some width, some height => some (width, height)
      | _, _ => none
    | _ => none

/-- Modelled from the spec: the resume invariant of §4.1 declares a chunk
done iff its index appears in `done.txt` and its encoded output file exists;
the engine's actual filter in `EncodeAll` consults no file system, so the
spec-side predicate takes the file-existence oracle as a parameter. -/
def specChunkDone (done : List ChunkComp) (outputExists : Int → Bool) (idx : Int) : Prop :=
  doneSet done idx = true ∧ outputExists idx = true

/-! ## Theorems -/

/-- C1 (counterexample): the planned chunk `0` is in the resume log, its
output file does not exist (`outputExists` is constantly `false`, so the
spec's done-condition fails), and yet `EncodeAll`'s filter drops it from the
remaining work — the engine skips it rather than re-encoding it.  File
existence is never consulted by the filter. -/
theorem c1_skip_without_file :
    remainingChunks [⟨0, 0, 10⟩] [⟨0, 10, 5⟩] = [] ∧
    ¬ specChunkDone [⟨0, 10, 5⟩] (fun _ => false) 0 := by
  refine ⟨by decide, ?_⟩
  rintro ⟨-, h⟩
  cases h

/-- C1 (amended): a planned chunk is skipped on resume exactly when its
index appears in `done.txt`; the existence of its encoded output file plays
no role in the decision. -/
theorem c1_skip_iff_in_log (chunks : List Chunk) (done : List ChunkComp)
    (ch : Chunk) (hch : ch ∈ chunks) :
    ch ∉ remainingChunks chunks done ↔ doneSet done ch.idx = true := by
  simp [remainingChunks, List.mem_filter, hch]

/-- C1 witness: the amended skip criterion evaluated on a concrete plan and
log. -/
theorem c1_skip_iff_in_log_witness :
    (⟨0, 0, 10⟩ : Chunk) ∈ [(⟨0, 0, 10⟩ : Chunk), ⟨1, 10, 20⟩] ∧
    ((⟨0, 0, 10⟩ : Chunk) ∉ remainingChunks [⟨0, 0, 10⟩, ⟨1, 10, 20⟩] [⟨0, 10, 5⟩] ↔
      doneSet [⟨0, 10, 5⟩] (⟨0, 0, 10⟩ : Chunk).idx = true) :=
  ⟨by decide, c1_skip_iff_in_log [⟨0, 0, 10⟩, ⟨1, 10, 20⟩] [⟨0, 10, 5⟩] ⟨0, 0, 10⟩ (by decide)⟩

/-- The error slot keeps its first occupant across any further collector
steps. -/
theorem foldl_collectStep_some (rs : List EncodeResult) :
    ∀ (p : Progress) (e : String),
      (rs.foldl collectStep (p, some e)).2 = some e := by
  induction rs with
  | nil => intro p e; rfl
  | cons r rs ih =>
    intro p e
    rcases hr : r.error with - | e'
    · simpa [collectStep, hr] using ih _ e
    · simpa [collectStep, hr, latch] using ih p e

/-- Starting from an empty slot, the collector ends holding the first error
among the results it received (or nothing when all succeeded). -/
theorem foldl_collectStep_none (rs : List EncodeResult) :
    ∀ (p : Progress),
      (rs.foldl collectStep (p, none)).2 = (rs.filterMap EncodeResult.error).head? := by
  induction rs with
  | nil => intro p; rfl
  | cons r rs ih =>
    intro p
    rcases hr : r.error with - | e
    · simpa [collectStep, hr, List.filterMap_cons, hr] using ih _
    · simp [collectStep, hr, latch, List.filterMap_cons, foldl_collectStep_some]

/-- C6: whatever results the collector receives, the error handed back by
the pipeline entry point (`getError()` at the end of `EncodeAll`) is
exactly the first failing result's error; when `k ≥ 1` chunk encodes fail,
that is one single error and every later failure leaves the slot
unchanged. -/
theorem c6_first_error_returned (chunks : List Chunk) (done : List ChunkComp)
    (results : List EncodeResult) :
    (runCollector chunks done results).2 =
      (results.filterMap EncodeResult.error).head? :=
  foldl_collectStep_none results (initProgress chunks done)

/-- C8: for `W ≥ 1` the computed threads-per-worker value is exactly
`clamp(physical / W + (logical > physical ? 1 : 0), 1, T_max(width))` with
`T_max` 6/10/16 for widths below 1920 / in `[1920, 3840)` / at least
3840. -/
theorem c8_threads_formula (workers physical logical : Int) (width : Nat)
    (hw : 1 ≤ workers) :
    calculateThreadsPerWorker workers physical logical width =
      max 1 (min (physical / workers + (if physical < logical then 1 else 0))
        (if width ≥ 3840 then 16 else if width ≥ 1920 then 10 else 6)) := by
  simp only [calculateThreadsPerWorker, if_neg (by omega : ¬ workers ≤ 0)]
  generalize physical / workers = t
  rcases le_or_lt 3840 width with h4 | h4 <;>
    rcases le_or_lt 1920 width with h2 | h2 <;>
      simp only [ge_iff_le, h4, h2, if_pos, if_neg, not_le.mpr,
        max_def, min_def, gt_iff_lt] <;>
    split_ifs <;> omega

/-- C8 witness: the formula evaluated at 8 physical / 16 logical cores,
2 workers, width 1920. -/
theorem c8_threads_formula_witness :
    (1 : Int) ≤ 2 ∧
    calculateThreadsPerWorker 2 8 16 1920 =
      max 1 (min ((8 : Int) / 2 + (if (8 : Int) < 16 then 1 else 0))
        (if (1920 : Nat) ≥ 3840 then 16 else if (1920 : Nat) ≥ 1920 then 10 else 6)) :=
  ⟨by decide, c8_threads_formula 2 8 16 1920 (by decide)⟩

/-- C4 (counterexample): with an available-memory reading of `0` (the
host query failed), `CapWorkers` returns the requested count uncapped,
while the claimed formula `clamp(floor(available·0.7/class), 1, W_req)`
yields `1` with a cap: at `W_req = 2`, SD dimensions, the code gives
`(2, false)` but the formula gives `1`. -/
theorem c4_zero_reading_uncapped :
    capWorkers 2 1280 720 0 = (2, false) ∧
    max 1 (min ((0 * 7 / 10 / memoryPerWorker 1280 720 : Nat) : Int) 2) = 1 := by
  decide

/-- C4 (amended): for `W_req ≥ 1`, whenever the available-memory reading is
positive the effective worker count is exactly
`clamp(floor(usable/class), 1, W_req)` with
`usable = uint64(float64(available) * 0.7)` computed in IEEE double
arithmetic (`goUsableMemory`; at rounding boundaries this is one below the
exact `available × 0.7`) and the class given by `memoryPerWorker`; the
capped flag is reported exactly when the result is below `W_req`.  A
reading of `0` leaves the requested count unchanged and uncapped. -/
theorem c4_capWorkers_formula (requested : Int) (width height : Nat) (available : Nat)
    (hreq : 1 ≤ requested) :
    ((capWorkers requested width height available).2 = true ↔
      (capWorkers requested width height available).1 < requested) ∧
    (0 < available →
      (capWorkers requested width height available).1 =
        max 1 (min ((goUsableMemory available / memoryPerWorker width height : Nat) : Int)
          requested)) ∧
    (available = 0 → capWorkers requested width height available = (requested, false)) := by
  rcases Nat.eq_zero_or_pos available with h0 | hpos
  · subst h0
    have hz : capWorkers requested width height 0 = (requested, false) := by
      simp [capWorkers]
    rw [hz]
    exact ⟨by simp, fun h => absurd h (by omega), fun _ => rfl⟩
  · set d : Int := ((goUsableMemory available / memoryPerWorker width height : Nat) : Int)
      with hd
    have hd0 : (0 : Int) ≤ d := by rw [hd]; exact Int.natCast_nonneg _
    have hform : capWorkers requested width height available =
        if requested > max d 1 then (max d 1, true) else (requested, false) := by
      rw [hd]
      simp only [capWorkers]
      rw [if_pos hpos]
    by_cases hgt : requested > max d 1
    · rw [hform, if_pos hgt]
      exact ⟨by simpa using hgt, fun _ => by omega, fun h => absurd h (by omega)⟩
    · rw [hform, if_neg hgt]
      exact ⟨by simp, fun _ => by omega, fun h => absurd h (by omega)⟩

/-- C4 witness: the formula at a double-rounding boundary — 45 GiB
available (`48318382080` bytes), SD class, 63 workers requested.
`float64(48318382080) * 0.7` is `33822867455.999996`, so `usable`
truncates to `33822867455`, one less than the exact
`48318382080 · 7 / 10 = 33822867456`, and the count caps at 62. -/
theorem c4_capWorkers_formula_witness :
    (1 : Int) ≤ 63 ∧
    (((capWorkers 63 1280 720 48318382080).2 = true ↔
      (capWorkers 63 1280 720 48318382080).1 < 63) ∧
    (0 < 48318382080 →
      (capWorkers 63 1280 720 48318382080).1 =
        max 1 (min ((goUsableMemory 48318382080 / memoryPerWorker 1280 720 : Nat) : Int) 63)) ∧
    ((48318382080 : Nat) = 0 → capWorkers 63 1280 720 48318382080 = (63, false))) :=
  ⟨by decide, c4_capWorkers_formula 63 1280 720 48318382080 (by decide)⟩

/-- At the 45 GiB boundary reading the embedded `CapWorkers` reproduces the
program: `usable` is `33822867455` (not the exact-arithmetic
`33822867456`), so 63 requested workers are capped to 62. -/
theorem capWorkers_float_boundary :
    goUsableMemory 48318382080 = 33822867455 ∧
    48318382080 * 7 / 10 = 33822867456 ∧
    capWorkers 63 1280 720 48318382080 = (62, true) := by
  decide

/-- The spec's scenario S3 under the embedded `CapWorkers`: 12 GiB
available, UHD class 5 GiB, 8 workers requested — capped to one. -/
theorem capWorkers_uhd_example :
    capWorkers 8 3840 2160 (12 * 2 ^ 30) = (1, true) := by
  decide

/-- C9 (counterexample): two invocations of the admission policy with
identical requested workers, width and height but different host memory
readings return different results — the policy is not a function of the
three stated inputs alone. -/
theorem c9_not_pure_in_three_inputs :
    capWorkers 8 3840 2160 (100 * 2 ^ 30) ≠ capWorkers 8 3840 2160 (6 * 2 ^ 30) := by
  decide

/-- C9 (amended): the admission policy is a pure function of requested
workers, width, height AND the available-memory reading: invocations with
identical values of all four inputs return identical
`(effective workers, capped)` outputs. -/
theorem c9_pure_with_reading (r₁ r₂ : Int) (w₁ w₂ h₁ h₂ a₁ a₂ : Nat)
    (hr : r₁ = r₂) (hw : w₁ = w₂) (hh : h₁ = h₂) (ha : a₁ = a₂) :
    capWorkers r₁ w₁ h₁ a₁ = capWorkers r₂ w₂ h₂ a₂ := by
  subst hr hw hh ha
  rfl

/-- C9 witness: the four-input purity instantiated at one concrete
invocation. -/
theorem c9_pure_with_reading_witness :
    (8 : Int) = 8 ∧ (3840 : Nat) = 3840 ∧ (2160 : Nat) = 2160 ∧
    (12 * 2 ^ 30 : Nat) = 12 * 2 ^ 30 ∧
    capWorkers 8 3840 2160 (12 * 2 ^ 30) = capWorkers 8 3840 2160 (12 * 2 ^ 30) :=
  ⟨rfl, rfl, rfl, rfl,
    c9_pure_with_reading 8 8 3840 3840 2160 2160 (12 * 2 ^ 30) (12 * 2 ^ 30) rfl rfl rfl rfl⟩

/-- C10: `GetOutputDimensions` is total and equals the original dimensions
unless the filter string is nonempty and its first two colon-separated
fields (after stripping an optional `crop=` prefix) both parse as unsigned
32-bit integers, in which case it returns those two values.  `cropFilterWH`
is the claim's reading of the fields; malformed filters fall back to the
source dimensions. -/
theorem c10_output_dimensions (originalWidth originalHeight : Nat) (cropFilter : List Char) :
    getOutputDimensions originalWidth originalHeight cropFilter =
      (cropFilterWH cropFilter).getD (originalWidth, originalHeight) := by
  by_cases hf : cropFilter = []
  · simp [getOutputDimensions, cropFilterWH, hf]
  · simp only [getOutputDimensions, cropFilterWH, hf, if_neg, not_false_iff]
    rcases hsp : goSplitOn ':' (trimCropPrefix cropFilter) with - | ⟨p0, - | ⟨p1, rest⟩⟩
    · rfl
    · rfl
    · rcases hw : goParseUint 32 p0 with - | w <;>
        rcases hh : goParseUint 32 p1 with - | h <;>
          simp [hw, hh]

/-- The max-picking fold returns its seed or a list element. -/
theorem foldl_pick_mem (l : List (Rect × Nat)) :
    ∀ p : Rect × Nat,
      l.foldl (fun best q => if best.2 < q.2 then q else best) p = p ∨
      l.foldl (fun best q => if best.2 < q.2 then q else best) p ∈ l := by
  induction l with
  | nil => intro p; exact Or.inl rfl
  | cons q l ih =>
    intro p
    simp only [List.foldl_cons]
    rcases ih (if p.2 < q.2 then q else p) with h | h
    · rw [h]
      split_ifs with hc
      · exact Or.inr (List.mem_cons_self _ _)
      · exact Or.inl rfl
    · exact Or.inr (List.mem_cons_of_mem _ h)

/-- The max-picking fold dominates its seed and every list element. -/
theorem foldl_pick_ge (l : List (Rect × Nat)) :
    ∀ p : Rect × Nat,
      p.2 ≤ (l.foldl (fun best q => if best.2 < q.2 then q else best) p).2 ∧
      ∀ q ∈ l, q.2 ≤ (l.foldl (fun best q => if best.2 < q.2 then q else best) p).2 := by
  induction l with
  | nil => intro p; exact ⟨le_refl _, by simp⟩
  | cons q l ih =>
    intro p
    simp only [List.foldl_cons]
    obtain ⟨h1, h2⟩ := ih (if p.2 < q.2 then q else p)
    have hpq : p.2 ≤ (if p.2 < q.2 then q else p).2 ∧ q.2 ≤ (if p.2 < q.2 then q else p).2 := by
      split_ifs with hc <;> omega
    refine ⟨le_trans hpq.1 h1, ?_⟩
    intro r hr
    rcases List.mem_cons.mp hr with rfl | hr
    · exact le_trans hpq.2 h1
    · exact h2 r hr

/-- `sorted[0]` is one of the counted rectangles. -/
theorem argmaxCount_mem (counts : List (Rect × Nat)) (h : counts ≠ []) :
    argmaxCount counts ∈ counts := by
  rcases counts with - | ⟨p, l⟩
  · exact absurd rfl h
  · rcases foldl_pick_mem l p with heq | hmem
    · rw [argmaxCount, heq]; exact List.mem_cons_self _ _
    · exact List.mem_cons_of_mem _ hmem

/-- `sorted[0]` carries the maximal count. -/
theorem argmaxCount_max (counts : List (Rect × Nat)) :
    ∀ q ∈ counts, q.2 ≤ (argmaxCount counts).2 := by
  rcases counts with - | ⟨p, l⟩
  · intro q hq; cases hq
  · intro q hq
    rcases List.mem_cons.mp hq with rfl | hq
    · exact (foldl_pick_ge l q).1
    · exact (foldl_pick_ge l p).2 q hq

/-- An element's count is at most the total sample count. -/
theorem snd_le_sum (l : List (Rect × Nat)) :
    ∀ p ∈ l, p.2 ≤ (l.map Prod.snd).sum := by
  induction l with
  | nil => intro p hp; cases hp
  | cons q l ih =>
    intro p hp
    rcases List.mem_cons.mp hp with rfl | hp
    · simp
    · have := ih p hp
      simp only [List.map_cons, List.sum_cons]
      omega

/-- Two distinct entries together count at most the total. -/
theorem pair_le_sum (l : List (Rect × Nat)) (p q : Rect × Nat)
    (hp : p ∈ l) (hq : q ∈ l) (hne : q ≠ p) :
    p.2 + q.2 ≤ (l.map Prod.snd).sum := by
  induction l with
  | nil => cases hp
  | cons r l ih =>
    simp only [List.map_cons, List.sum_cons]
    rcases List.mem_cons.mp hp with rfl | hp'
    · rcases List.mem_cons.mp hq with rfl | hq'
      · exact absurd rfl hne
      · have := snd_le_sum l q hq'
        omega
    · rcases List.mem_cons.mp hq with rfl | hq'
      · have := snd_le_sum l p hp'
        omega
      · have := ih hp' hq'
        omega

/-- C5 (counterexample): with two distinct sampled rectangles where the
source-sized rectangle holds a dominant share (9 of 10 samples, strictly
above 0.80), `DetectCrop` returns neither a crop requirement nor the
multiple-aspect-ratios flag — the claim's "every other such case is
flagged as multiple aspect ratios" fails here. -/
theorem c5_dominant_source_not_flagged :
    detectCropAgg [(⟨1920, 1080, 0, 0⟩, 9), (⟨1920, 800, 0, 140⟩, 1)] 1920 1080 =
      ⟨none, false, false⟩ ∧
    (([((⟨1920, 1080, 0, 0⟩ : Rect), 9), (⟨1920, 800, 0, 140⟩, 1)].map Prod.snd).sum * 4 < 9 * 5) := by
  decide

/-- C5 (amended): with at least two distinct sampled rectangles, the crop
is required exactly when some rectangle's share of the samples exceeds 0.80
and that rectangle differs from the source dimensions; the result is
flagged as multiple aspect ratios exactly when no rectangle's share exceeds
0.80 (a dominant rectangle equal to the source yields no crop and no
flag). -/
theorem c5_crop_decision (counts : List (Rect × Nat)) (sourceWidth sourceHeight : Nat)
    (h2 : 2 ≤ counts.length) :
    ((detectCropAgg counts sourceWidth sourceHeight).required = true ↔
      ∃ p ∈ counts, (counts.map Prod.snd).sum * 4 < p.2 * 5 ∧
        isEffectiveCrop p.1 sourceWidth sourceHeight = true) ∧
    ((detectCropAgg counts sourceWidth sourceHeight).multipleRatios = true ↔
      ∀ p ∈ counts, p.2 * 5 ≤ (counts.map Prod.snd).sum * 4) := by
  rcases counts with - | ⟨c1, - | ⟨c2, cs⟩⟩
  · simp at h2
  · simp at h2
  · simp only [detectCropAgg]
    have hMmem : argmaxCount (c1 :: c2 :: cs) ∈ c1 :: c2 :: cs :=
      argmaxCount_mem _ (by simp)
    have hMmax := argmaxCount_max (c1 :: c2 :: cs)
    set L := c1 :: c2 :: cs with hL
    set T := (L.map Prod.snd).sum with hT
    set M := argmaxCount L with hM
    by_cases hdom : T * 4 < M.2 * 5
    · rw [if_pos hdom]
      by_cases heff : isEffectiveCrop M.1 sourceWidth sourceHeight = true
      · rw [if_pos heff]
        constructor
        · exact ⟨fun _ => ⟨M, hMmem, hdom, heff⟩, fun _ => rfl⟩
        · refine iff_of_false (by simp) ?_
          intro hall
          have := hall M hMmem
          omega
      · rw [if_neg heff]
        constructor
        · refine iff_of_false (by simp) ?_
          rintro ⟨p, hp, hpdom, hpeff⟩
          by_cases hpe : p = M
          · exact heff (hpe ▸ hpeff)
          · have hpair := pair_le_sum L p M hp hMmem (fun h => hpe h.symm)
            have hmax := hMmax p hp
            omega
        · refine iff_of_false (by simp) ?_
          intro hall
          have := hall M hMmem
          omega
    · rw [if_neg hdom]
      constructor
      · refine iff_of_false (by simp) ?_
        rintro ⟨p, hp, hpdom, -⟩
        have hmax := hMmax p hp
        omega
      · refine iff_of_true rfl ?_
        intro p hp
        have hmax := hMmax p hp
        omega

/-- C5 witness: the amended decision criterion on a concrete letterbox
aggregate (a `1920×800` rectangle in 9 of 10 samples against a `1920×1080`
source). -/
theorem c5_crop_decision_witness :
    2 ≤ ([((⟨1920, 800, 0, 140⟩ : Rect), 9), (⟨1920, 1080, 0, 0⟩, 1)] : List (Rect × Nat)).length ∧
    (((detectCropAgg [(⟨1920, 800, 0, 140⟩, 9), (⟨1920, 1080, 0, 0⟩, 1)] 1920 1080).required = true ↔
      ∃ p ∈ ([((⟨1920, 800, 0, 140⟩ : Rect), 9), (⟨1920, 1080, 0, 0⟩, 1)] : List (Rect × Nat)),
        (([((⟨1920, 800, 0, 140⟩ : Rect), 9), (⟨1920, 1080, 0, 0⟩, 1)].map Prod.snd).sum * 4 < p.2 * 5 ∧
          isEffectiveCrop p.1 1920 1080 = true)) ∧
    ((detectCropAgg [(⟨1920, 800, 0, 140⟩, 9), (⟨1920, 1080, 0, 0⟩, 1)] 1920 1080).multipleRatios = true ↔
      ∀ p ∈ ([((⟨1920, 800, 0, 140⟩ : Rect), 9), (⟨1920, 1080, 0, 0⟩, 1)] : List (Rect × Nat)),
        p.2 * 5 ≤ ([((⟨1920, 800, 0, 140⟩ : Rect), 9), (⟨1920, 1080, 0, 0⟩, 1)].map Prod.snd).sum * 4)) :=
  ⟨by decide,
    c5_crop_decision [(⟨1920, 800, 0, 140⟩, 9), (⟨1920, 1080, 0, 0⟩, 1)] 1920 1080 (by decide)⟩

/-- `buildScenes` on a sorted list of boundaries below `totalFrames` tiles
`[head, totalFrames)`. -/
theorem buildScenes_chain (tf : Int) (l : List Int) :
    ∀ a : Int, l.Sorted (· ≤ ·) → (∀ x ∈ l, x < tf) → l.head? = some a →
      sceneChain a tf (buildScenes l tf) := by
  induction l with
  | nil => intro a _ _ h; cases h
  | cons x t ih =>
    intro a hs hlt hh
    have hxa : x = a := by simpa using hh
    subst hxa
    rcases t with - | ⟨b, rest⟩
    · have hxtf : x < tf := hlt x (by simp)
      simp only [buildScenes, if_pos hxtf]
      exact ⟨rfl, hxtf, rfl⟩
    · have hsorted := List.sorted_cons.mp hs
      have hxb : x ≤ b := hsorted.1 b (by simp)
      have hchain := ih b hsorted.2 (fun y hy => hlt y (List.mem_cons_of_mem _ hy)) (by simp)
      simp only [buildScenes]
      by_cases hlt2 : x < b
      · rw [if_pos hlt2]
        exact ⟨rfl, hlt2, hchain⟩
      · have hxb2 : x = b := le_antisymm hxb (not_lt.mp hlt2)
        rw [if_neg hlt2, List.nil_append, hxb2]
        exact hchain

/-- `chunkifyFrom` preserves chains, assigning consecutive indices. -/
theorem chunkifyFrom_chain (tf : Int) (ss : List Scene) :
    ∀ (k : Nat) (a : Int), sceneChain a tf ss →
      chunkChainFrom k a tf (chunkifyFrom k ss) := by
  induction ss with
  | nil => intro k a h; exact h
  | cons s rest ih =>
    intro k a h
    obtain ⟨h1, h2, h3⟩ := h
    exact ⟨rfl, h1, h2, ih (k + 1) s.endFrame h3⟩

/-- In a chunk chain, the `i`-th chunk has index `k + i` and is nonempty. -/
theorem chunkChain_get (tf : Int) (cs : List Chunk) :
    ∀ (k : Nat) (a : Int), chunkChainFrom k a tf cs →
      ∀ i c, cs.get? i = some c → c.idx = ((k + i : Nat) : Int) ∧ c.start < c.stop := by
  induction cs with
  | nil => intro k a _ i c hc; simp at hc
  | cons c0 rest ih =>
    intro k a h i c hc
    obtain ⟨hidx, hstart, hlt, hrest⟩ := h
    cases i with
    | zero =>
      have hc0 : c = c0 := by simpa using hc.symm
      subst hc0
      exact ⟨by simpa using hidx, by omega⟩
    | succ n =>
      have hn : rest.get? n = some c := by simpa using hc
      obtain ⟨h1, h2⟩ := ih (k + 1) c0.stop hrest n c hn
      refine ⟨?_, h2⟩
      rw [h1]
      congr 1
      omega

/-- In a chunk chain, the first chunk starts at `a`. -/
theorem chunkChain_head (tf : Int) (cs : List Chunk) (k : Nat) (a : Int)
    (h : chunkChainFrom k a tf cs) :
    ∀ c, cs.get? 0 = some c → c.start = a := by
  rcases cs with - | ⟨c0, rest⟩
  · intro c hc; simp at hc
  · intro c hc
    have hc0 : c = c0 := by simpa using hc.symm
    subst hc0
    exact h.2.1

/-- In a chunk chain, the last chunk ends at `totalFrames`. -/
theorem chunkChain_last (tf : Int) (cs : List Chunk) :
    ∀ (k : Nat) (a : Int), chunkChainFrom k a tf cs →
      ∀ c, cs.getLast? = some c → c.stop = tf := by
  induction cs with
  | nil => intro k a _ c hc; simp at hc
  | cons c0 rest ih =>
    intro k a h c hc
    obtain ⟨-, -, -, hrest⟩ := h
    rcases rest with - | ⟨c1, rest'⟩
    · have hc0 : c = c0 := by simpa using hc.symm
      subst hc0
      exact hrest
    · rw [List.getLast?_cons_cons] at hc
      exact ih (k + 1) c0.stop hrest c hc

/-- In a chunk chain, consecutive chunks meet: `end_i = start_{i+1}`. -/
theorem chunkChain_consec (tf : Int) (cs : List Chunk) :
    ∀ (k : Nat) (a : Int), chunkChainFrom k a tf cs →
      ∀ i c c', cs.get? i = some c → cs.get? (i + 1) = some c' → c.stop = c'.start := by
  induction cs with
  | nil => intro k a _ i c c' hc _; simp at hc
  | cons c0 rest ih =>
    intro k a h i c c' hc hc'
    obtain ⟨-, -, -, hrest⟩ := h
    cases i with
    | zero =>
      have hc0 : c = c0 := by simpa using hc.symm
      have h1 : rest.get? 0 = some c' := by simpa using hc'
      rw [hc0]
      exact (chunkChain_head tf rest (k + 1) c0.stop hrest c' h1).symm
    | succ n =>
      have h1 : rest.get? n = some c := by simpa using hc
      have h2 : rest.get? (n + 1) = some c' := by simpa using hc'
      exact ih (k + 1) c0.stop hrest n c c' h1 h2

/-- C2: for positive `total_frames` and scene boundaries inside
`[0, total_frames)`, loading scenes and chunkifying yields an exact
partition of `[0, total_frames)`: a nonempty chunk list whose first chunk
starts at 0, whose consecutive chunks meet, whose last chunk ends at
`total_frames`, and whose `i`-th chunk carries index `i` and at least one
frame. -/
theorem c2_partition (frameNums : List Int) (totalFrames : Int)
    (htf : 0 < totalFrames) (hmem : ∀ x ∈ frameNums, 0 ≤ x ∧ x < totalFrames) :
    chunkify (loadScenes frameNums totalFrames) ≠ [] ∧
    (∀ c, (chunkify (loadScenes frameNums totalFrames)).get? 0 = some c → c.start = 0) ∧
    (∀ c, (chunkify (loadScenes frameNums totalFrames)).getLast? = some c →
      c.stop = totalFrames) ∧
    (∀ i c c', (chunkify (loadScenes frameNums totalFrames)).get? i = some c →
      (chunkify (loadScenes frameNums totalFrames)).get? (i + 1) = some c' →
      c.stop = c'.start) ∧
    (∀ i c, (chunkify (loadScenes frameNums totalFrames)).get? i = some c →
      c.idx = (i : Int) ∧ c.start < c.stop) := by
  have hsort : (List.insertionSort (· ≤ ·) frameNums).Sorted (· ≤ ·) :=
    List.sorted_insertionSort _ _
  have hmem' : ∀ x ∈ List.insertionSort (· ≤ ·) frameNums, 0 ≤ x ∧ x < totalFrames :=
    fun x hx => hmem x ((List.perm_insertionSort (· ≤ ·) frameNums).subset hx)
  have hchain : chunkChainFrom 0 0 totalFrames (chunkify (loadScenes frameNums totalFrames)) := by
    refine chunkifyFrom_chain totalFrames _ 0 0 ?_
    by_cases hhead : (List.insertionSort (· ≤ ·) frameNums).head? = some 0
    · have hload : loadScenes frameNums totalFrames =
          buildScenes (List.insertionSort (· ≤ ·) frameNums) totalFrames := by
        simp only [loadScenes, hhead, if_pos]
      rw [hload]
      exact buildScenes_chain totalFrames _ 0 hsort (fun x hx => (hmem' x hx).2) hhead
    · have hload : loadScenes frameNums totalFrames =
          buildScenes (0 :: List.insertionSort (· ≤ ·) frameNums) totalFrames := by
        simp only [loadScenes, hhead, if_neg, not_false_iff]
      rw [hload]
      refine buildScenes_chain totalFrames _ 0 ?_ ?_ rfl
      · exact List.sorted_cons.mpr ⟨fun b hb => (hmem' b hb).1, hsort⟩
      · intro x hx
        rcases List.mem_cons.mp hx with rfl | hx
        · exact htf
        · exact (hmem' x hx).2
  refine ⟨?_, chunkChain_head totalFrames _ 0 0 hchain,
    chunkChain_last totalFrames _ 0 0 hchain,
    chunkChain_consec totalFrames _ 0 0 hchain, ?_⟩
  · intro hnil
    rw [hnil] at hchain
    have : (0 : Int) = totalFrames := hchain
    omega
  · intro i c hc
    have := chunkChain_get totalFrames _ 0 0 hchain i c hc
    simpa using this

/-- C2 witness: the partition property on boundaries `[5, 0, 9]` with 12
total frames. -/
theorem c2_partition_witness :
    (0 : Int) < 12 ∧
    (chunkify (loadScenes [5, 0, 9] 12) ≠ [] ∧
    (∀ c, (chunkify (loadScenes [5, 0, 9] 12)).get? 0 = some c → c.start = 0) ∧
    (∀ c, (chunkify (loadScenes [5, 0, 9] 12)).getLast? = some c → c.stop = 12) ∧
    (∀ i c c', (chunkify (loadScenes [5, 0, 9] 12)).get? i = some c →
      (chunkify (loadScenes [5, 0, 9] 12)).get? (i + 1) = some c' → c.stop = c'.start) ∧
    (∀ i c, (chunkify (loadScenes [5, 0, 9] 12)).get? i = some c →
      c.idx = (i : Int) ∧ c.start < c.stop)) :=
  ⟨by decide, c2_partition [5, 0, 9] 12 (by decide) (by decide)⟩

/-- The collector's fold leaves the totals unchanged and advances each
completion counter by exactly the successful results' contributions; the
byte counter, a Go `uint64`, accumulates modulo `2^64`. -/
theorem foldl_collectStep_counts (rs : List EncodeResult) :
    ∀ st : Progress × Option String, st.1.bytesComplete < 2 ^ 64 →
      (rs.foldl collectStep st).1.chunksTotal = st.1.chunksTotal ∧
      (rs.foldl collectStep st).1.framesTotal = st.1.framesTotal ∧
      (rs.foldl collectStep st).1.chunksComplete =
        st.1.chunksComplete + ((successes rs).length : Int) ∧
      (rs.foldl collectStep st).1.framesComplete =
        st.1.framesComplete + ((successes rs).map EncodeResult.frames).sum ∧
      (rs.foldl collectStep st).1.bytesComplete =
        (st.1.bytesComplete + ((successes rs).map EncodeResult.size).sum) % 2 ^ 64 := by
  induction rs with
  | nil =>
    intro st hb
    refine ⟨rfl, rfl, by simp [successes], by simp [successes], ?_⟩
    simp only [List.foldl_nil, successes, List.filter_nil, List.map_nil, List.sum_nil,
      Nat.add_zero]
    omega
  | cons r rs ih =>
    intro st hb
    simp only [List.foldl_cons]
    rcases hr : r.error with - | e
    · have hblt : (collectStep st r).1.bytesComplete < 2 ^ 64 := by
        simp only [collectStep, hr]
        exact Nat.mod_lt _ (by norm_num)
      obtain ⟨h1, h2, h3, h4, h5⟩ := ih (collectStep st r) hblt
      have hs : successes (r :: rs) = r :: successes rs := by
        simp [successes, List.filter_cons, hr]
      have hcs : (collectStep st r).1.chunksComplete = st.1.chunksComplete + 1 ∧
          (collectStep st r).1.framesComplete = st.1.framesComplete + r.frames ∧
          (collectStep st r).1.bytesComplete = (st.1.bytesComplete + r.size) % 2 ^ 64 ∧
          (collectStep st r).1.chunksTotal = st.1.chunksTotal ∧
          (collectStep st r).1.framesTotal = st.1.framesTotal := by
        simp [collectStep, hr]
      rw [hs] at *
      simp only [List.length_cons, List.map_cons, List.sum_cons] at *
      refine ⟨by omega, by omega, by omega, by omega, by omega⟩
    · have hcs : (collectStep st r).1 = st.1 := by
        simp [collectStep, hr]
      obtain ⟨h1, h2, h3, h4, h5⟩ := ih (collectStep st r) (hcs ▸ hb)
      have hs : successes (r :: rs) = successes rs := by
        simp [successes, List.filter_cons, hr]
      rw [hcs] at h1 h2 h3 h4 h5
      rw [hs]
      exact ⟨h1, h2, h3, h4, h5⟩

/-- Filtering can only shrink a sum of non-negative summands. -/
theorem sum_map_filter_le {α : Type} (l : List α) (p : α → Bool) (f : α → Nat) :
    ((l.filter p).map f).sum ≤ (l.map f).sum := by
  induction l with
  | nil => simp
  | cons x l ih =>
    cases hx : p x
    · simp only [List.filter_cons, hx, Bool.false_eq_true, if_false, List.map_cons,
        List.sum_cons]
      omega
    · simp only [List.filter_cons, hx, if_true, List.map_cons, List.sum_cons]
      omega

/-- Splitting a sum over a predicate: kept plus dropped equals the whole. -/
theorem sum_filter_partition {α : Type} (l : List α) (p : α → Bool) (f : α → Int) :
    ((l.filter p).map f).sum + ((l.filter fun x => !p x).map f).sum = (l.map f).sum := by
  induction l with
  | nil => simp
  | cons x l ih =>
    cases hx : p x
    · simp only [List.filter_cons, hx, Bool.not_false, if_true, if_false,
        Bool.false_eq_true, List.map_cons, List.sum_cons]
      omega
    · simp only [List.filter_cons, hx, Bool.not_true, if_true, if_false,
        Bool.false_eq_true, List.map_cons, List.sum_cons]
      omega

/-- A sublist of non-negative integers sums to no more than the whole. -/
theorem sublist_sum_le (l₁ l₂ : List Int) (h : l₁.Sublist l₂) (hpos : ∀ x ∈ l₂, 0 ≤ x) :
    l₁.sum ≤ l₂.sum := by
  induction h with
  | slnil => exact le_refl _
  | cons a h ih =>
    have ha := hpos a (by simp)
    have := ih fun x hx => hpos x (List.mem_cons_of_mem _ hx)
    simp only [List.sum_cons]
    omega
  | cons₂ a h ih =>
    have := ih fun x hx => hpos x (List.mem_cons_of_mem _ hx)
    simp only [List.sum_cons]
    omega

/-- A sub-multiset of pairs with non-negative second components has a
smaller second-component sum. -/
theorem subperm_snd_sum_le (l₁ l₂ : List (Int × Int)) (h : l₁.Subperm l₂)
    (hpos : ∀ x ∈ l₂, 0 ≤ x.2) :
    (l₁.map Prod.snd).sum ≤ (l₂.map Prod.snd).sum := by
  obtain ⟨l, hperm, hsub⟩ := h
  have h1 : (l₁.map Prod.snd).sum = (l.map Prod.snd).sum := ((hperm.map Prod.snd).sum_eq).symm
  rw [h1]
  refine sublist_sum_le _ _ (hsub.map Prod.snd) ?_
  intro x hx
  obtain ⟨y, hy, rfl⟩ := List.mem_map.mp hx
  exact hpos y hy

/-- The frames recorded in a well-formed resume log are bounded by the
frames of the planned chunks it marks done. -/
theorem resume_frames_le (chunks : List Chunk) (done : List ChunkComp)
    (hframes : ∀ c ∈ chunks, c.start ≤ c.stop)
    (hlogidx : (done.map ChunkComp.idx).Nodup)
    (hlog : ∀ e ∈ done, ∃ c ∈ chunks, c.idx = e.idx ∧ c.frames = e.frames) :
    totalEncodedFrames done ≤
      ((chunks.filter fun c => doneSet done c.idx).map Chunk.frames).sum := by
  have hnd : (done.map fun e => (e.idx, e.frames)).Nodup := by
    refine List.Nodup.of_map Prod.fst ?_
    simpa [List.map_map, Function.comp] using hlogidx
  have hsubset : (done.map fun e => (e.idx, e.frames)) ⊆
      ((chunks.filter fun c => doneSet done c.idx).map fun c => (c.idx, c.frames)) := by
    intro x hx
    obtain ⟨e, he, rfl⟩ := List.mem_map.mp hx
    obtain ⟨c, hc, hc1, hc2⟩ := hlog e he
    refine List.mem_map.mpr ⟨c, ?_, by rw [hc1, hc2]⟩
    refine List.mem_filter.mpr ⟨hc, ?_⟩
    exact List.any_eq_true.mpr ⟨e, he, by rw [hc1]; exact beq_self_eq_true _⟩
  have hsp := List.subperm_of_subset hnd hsubset
  have hposms : ∀ x ∈ ((chunks.filter fun c => doneSet done c.idx).map
      fun c => (c.idx, c.frames)), (0 : Int) ≤ x.2 := by
    intro x hx
    obtain ⟨c, hc, rfl⟩ := List.mem_map.mp hx
    have := hframes c (List.mem_filter.mp hc).1
    simp only [Chunk.frames]
    omega
  have hsum := subperm_snd_sum_le _ _ hsp hposms
  have e1 : ((done.map fun e => (e.idx, e.frames)).map Prod.snd).sum =
      totalEncodedFrames done := by
    simp only [totalEncodedFrames, List.map_map]
    rfl
  have e2 : (((chunks.filter fun c => doneSet done c.idx).map
        fun c => (c.idx, c.frames)).map Prod.snd).sum =
      ((chunks.filter fun c => doneSet done c.idx).map Chunk.frames).sum := by
    simp only [List.map_map]
    rfl
  rw [e1, e2] at hsum
  exact hsum

/-- C3 (counterexample): a resume log whose single record does not match
any planned chunk (index 5, 100 frames against a two-chunk plan totalling
20 frames) makes `frames_done` exceed `frames_total` after the first
collector update — the claimed bound fails for arbitrary resume-log
contents. -/
theorem c3_frames_exceed_total :
    (runCollector [⟨0, 0, 10⟩, ⟨1, 10, 20⟩] [⟨5, 100, 0⟩]
      [⟨1, 10, 3, none⟩]).1.framesTotal <
    (runCollector [⟨0, 0, 10⟩, ⟨1, 10, 20⟩] [⟨5, 100, 0⟩]
      [⟨1, 10, 3, none⟩]).1.framesComplete := by
  decide

/-- C3 (amended): for planned chunks with `start ≤ end`, a resume log whose
records carry distinct indices each matching a planned chunk with that
chunk's frame count, a run in which the successful results form a
sub-multiset of the remaining chunks' `(index, frames)` pairs, and a total
recorded byte volume below `2^64` (Go's `uint64` byte counter wraps
otherwise): every component of `(chunks_done, frames_done, bytes_done)` is
non-decreasing along the collector updates, and
`chunks_done ≤ chunks_total` and `frames_done ≤ frames_total` hold at the
end (hence, by monotonicity, throughout).  The code maintains no total for
bytes. -/
theorem c3_progress_monotone_bounded (chunks : List Chunk) (done : List ChunkComp)
    (rs : List EncodeResult)
    (hframes : ∀ c ∈ chunks, c.start ≤ c.stop)
    (hlogidx : (done.map ChunkComp.idx).Nodup)
    (hlog : ∀ e ∈ done, ∃ c ∈ chunks, c.idx = e.idx ∧ c.frames = e.frames)
    (hsucc : ((successes rs).map fun r => (r.chunkIdx, r.frames)).Subperm
      ((remainingChunks chunks done).map fun c => (c.idx, c.frames)))
    (hbytes : (done.map ChunkComp.size).sum + (rs.map EncodeResult.size).sum < 2 ^ 64) :
    (∀ pre suf, rs = pre ++ suf →
      Progress.le (runCollector chunks done pre).1 (runCollector chunks done rs).1) ∧
    (runCollector chunks done rs).1.chunksComplete ≤
      (runCollector chunks done rs).1.chunksTotal ∧
    (runCollector chunks done rs).1.framesComplete ≤
      (runCollector chunks done rs).1.framesTotal := by
  have hpos : ∀ r ∈ rs, r.error = none → 0 ≤ r.frames := by
    intro r hr he
    have hmem : (r.chunkIdx, r.frames) ∈
        ((successes rs).map fun r => (r.chunkIdx, r.frames)) :=
      List.mem_map.mpr ⟨r, List.mem_filter.mpr ⟨hr, by simp [he]⟩, rfl⟩
    have := hsucc.subset hmem
    obtain ⟨c, hc, hpair⟩ := List.mem_map.mp this
    have hcchunks : c ∈ chunks := (List.mem_filter.mp hc).1
    have := hframes c hcchunks
    have hfr : c.frames = r.frames := congrArg Prod.snd hpair
    simp only [Chunk.frames] at hfr
    omega
  have hinitb : (initProgress chunks done).bytesComplete = (done.map ChunkComp.size).sum := by
    simp only [initProgress, totalEncodedSize]
    exact Nat.mod_eq_of_lt (by omega)
  have hinitlt : (initProgress chunks done).bytesComplete < 2 ^ 64 := by
    rw [hinitb]
    omega
  refine ⟨?_, ?_⟩
  · rintro pre suf rfl
    obtain ⟨-, -, hc_pre, hf_pre, hb_pre⟩ :=
      foldl_collectStep_counts pre (initProgress chunks done, none) hinitlt
    obtain ⟨-, -, hc_all, hf_all, hb_all⟩ :=
      foldl_collectStep_counts (pre ++ suf) (initProgress chunks done, none) hinitlt
    have happ : successes (pre ++ suf) = successes pre ++ successes suf := by
      simp [successes, List.filter_append]
    have hrc1 : runCollector chunks done pre =
        pre.foldl collectStep (initProgress chunks done, none) := rfl
    have hrc2 : runCollector chunks done (pre ++ suf) =
        (pre ++ suf).foldl collectStep (initProgress chunks done, none) := rfl
    rw [hrc1, hrc2]
    refine ⟨?_, ?_, ?_⟩
    · rw [hc_pre, hc_all, happ]
      simp only [List.length_append]
      push_cast
      omega
    · rw [hf_pre, hf_all, happ]
      simp only [List.map_append, List.sum_append]
      have hnn : 0 ≤ ((successes suf).map EncodeResult.frames).sum := by
        refine List.sum_nonneg ?_
        intro x hx
        obtain ⟨r, hrmem, rfl⟩ := List.mem_map.mp hx
        have hrsuf : r ∈ suf := List.mem_of_mem_filter hrmem
        have herr : r.error = none :=
          Option.isNone_iff_eq_none.mp (List.mem_filter.mp hrmem).2
        exact hpos r (List.mem_append.mpr (Or.inr hrsuf)) herr
      omega
    · rw [hb_pre, hb_all, happ]
      simp only [List.map_append, List.sum_append]
      have h2 : ((successes (pre ++ suf)).map EncodeResult.size).sum =
          ((successes pre).map EncodeResult.size).sum +
          ((successes suf).map EncodeResult.size).sum := by
        rw [happ]
        simp [List.map_append, List.sum_append]
      have h1 : ((successes (pre ++ suf)).map EncodeResult.size).sum ≤
          ((pre ++ suf).map EncodeResult.size).sum :=
        sum_map_filter_le (pre ++ suf) (fun r => r.error.isNone) EncodeResult.size
      have hinitb2 : ((initProgress chunks done, (none : Option String)).1).bytesComplete =
          (done.map ChunkComp.size).sum := hinitb
      rw [hinitb2]
      omega
  · obtain ⟨h1, h2, h3, h4, -⟩ :=
      foldl_collectStep_counts rs (initProgress chunks done, none) hinitlt
    have hrc : runCollector chunks done rs =
        rs.foldl collectStep (initProgress chunks done, none) := rfl
    rw [hrc, h1, h2, h3, h4]
    have hlen : ((successes rs).length : Int) ≤ ((remainingChunks chunks done).length : Int) := by
      have := hsucc.length_le
      simp only [List.length_map] at this
      exact_mod_cast this
    have hremlen : (remainingChunks chunks done).length ≤ chunks.length :=
      List.length_filter_le _ _
    have hposrem : ∀ x ∈ ((remainingChunks chunks done).map
        fun c => (c.idx, c.frames)), (0 : Int) ≤ x.2 := by
      intro x hx
      obtain ⟨c, hc, rfl⟩ := List.mem_map.mp hx
      have := hframes c (List.mem_filter.mp hc).1
      simp only [Chunk.frames]
      omega
    have hsum1 : ((successes rs).map EncodeResult.frames).sum ≤
        ((remainingChunks chunks done).map Chunk.frames).sum := by
      have hsum := subperm_snd_sum_le _ _ hsucc hposrem
      have e1 : (((successes rs).map fun r => (r.chunkIdx, r.frames)).map Prod.snd).sum =
          ((successes rs).map EncodeResult.frames).sum := by
        simp only [List.map_map]
        rfl
      have e2 : (((remainingChunks chunks done).map fun c => (c.idx, c.frames)).map
            Prod.snd).sum =
          ((remainingChunks chunks done).map Chunk.frames).sum := by
        simp only [List.map_map]
        rfl
      rw [e1, e2] at hsum
      exact hsum
    have hsum2 := resume_frames_le chunks done hframes hlogidx hlog
    have hpart := sum_filter_partition chunks (fun c => doneSet done c.idx) Chunk.frames
    have hrem : remainingChunks chunks done = chunks.filter fun c => !(doneSet done c.idx) := rfl
    simp only [initProgress, hrem] at *
    constructor
    · omega
    · simp only [totalEncodedFrames] at *
      omega

/-- C3 witness: the amended progress invariant on a concrete two-chunk
plan, a matching one-record resume log, and one successful result for the
remaining chunk (total byte volume far below `2^64`). -/
theorem c3_progress_monotone_bounded_witness :
    (∀ c ∈ [(⟨0, 0, 10⟩ : Chunk), ⟨1, 10, 20⟩], c.start ≤ c.stop) ∧
    (([(⟨0, 10, 7⟩ : ChunkComp)].map ChunkComp.idx).Nodup) ∧
    (∀ e ∈ [(⟨0, 10, 7⟩ : ChunkComp)], ∃ c ∈ [(⟨0, 0, 10⟩ : Chunk), ⟨1, 10, 20⟩],
      c.idx = e.idx ∧ c.frames = e.frames) ∧
    (([(⟨0, 10, 7⟩ : ChunkComp)].map ChunkComp.size).sum +
      ([(⟨1, 10, 3, none⟩ : EncodeResult)].map EncodeResult.size).sum < 2 ^ 64) ∧
    ((∀ pre suf, [(⟨1, 10, 3, none⟩ : EncodeResult)] = pre ++ suf →
      Progress.le (runCollector [⟨0, 0, 10⟩, ⟨1, 10, 20⟩] [⟨0, 10, 7⟩] pre).1
        (runCollector [⟨0, 0, 10⟩, ⟨1, 10, 20⟩] [⟨0, 10, 7⟩]
          [⟨1, 10, 3, none⟩]).1) ∧
    (runCollector [⟨0, 0, 10⟩, ⟨1, 10, 20⟩] [⟨0, 10, 7⟩]
        [⟨1, 10, 3, none⟩]).1.chunksComplete ≤
      (runCollector [⟨0, 0, 10⟩, ⟨1, 10, 20⟩] [⟨0, 10, 7⟩]
        [⟨1, 10, 3, none⟩]).1.chunksTotal ∧
    (runCollector [⟨0, 0, 10⟩, ⟨1, 10, 20⟩] [⟨0, 10, 7⟩]
        [⟨1, 10, 3, none⟩]).1.framesComplete ≤
      (runCollector [⟨0, 0, 10⟩, ⟨1, 10, 20⟩] [⟨0, 10, 7⟩]
        [⟨1, 10, 3, none⟩]).1.framesTotal) :=
  ⟨by decide, by decide, by decide, by decide,
    c3_progress_monotone_bounded [⟨0, 0, 10⟩, ⟨1, 10, 20⟩] [⟨0, 10, 7⟩]
      [⟨1, 10, 3, none⟩] (by decide) (by decide) (by decide)
      (by
        rw [(by decide : ((successes [(⟨1, 10, 3, none⟩ : EncodeResult)]).map
            fun r => (r.chunkIdx, r.frames)) = [((1 : Int), (10 : Int))]),
          (by decide : ((remainingChunks [(⟨0, 0, 10⟩ : Chunk), ⟨1, 10, 20⟩]
              [(⟨0, 10, 7⟩ : ChunkComp)]).map fun c => (c.idx, c.frames)) =
            [((1 : Int), (10 : Int))])])
      (by decide)⟩

/-- A digit below ten renders to a decimal digit character. -/
theorem digitChar_isDigit {d : Nat} (h : d < 10) : goIsDigit (Nat.digitChar d) = true := by
  interval_cases d <;> decide

/-- Reading back the character of a digit below ten recovers it. -/
theorem digitVal_digitChar {d : Nat} (h : d < 10) : digitVal (Nat.digitChar d) = d := by
  interval_cases d <;> decide

/-- `%d` of a natural number prints at least one character. -/
theorem natToDecimal_ne_nil (n : Nat) : natToDecimal n ≠ [] := by
  by_cases h : n = 0
  · subst h; decide
  · simp only [natToDecimal, h, if_neg, not_false_iff]
    simp [Nat.digits_ne_nil_iff_ne_zero.mpr h]

/-- Every character `%d` prints for a natural number is a decimal digit. -/
theorem natToDecimal_digits (n : Nat) : ∀ c ∈ natToDecimal n, goIsDigit c = true := by
  by_cases h : n = 0
  · subst h; decide
  · simp only [natToDecimal, h, if_neg, not_false_iff]
    intro c hc
    obtain ⟨d, hd, rfl⟩ := List.mem_map.mp hc
    exact digitChar_isDigit (Nat.digits_lt_base (by norm_num) (List.mem_reverse.mp hd))

/-- Reading a big-endian digit rendering back with the parse fold recovers
`Nat.ofDigits`. -/
theorem decimalVal_digits (ds : List Nat) (hds : ∀ d ∈ ds, d < 10) :
    decimalVal (ds.reverse.map Nat.digitChar) = Nat.ofDigits 10 ds := by
  induction ds with
  | nil => simp [decimalVal, Nat.ofDigits]
  | cons d ds ih =>
    have hd : d < 10 := hds d (by simp)
    have hds' : ∀ x ∈ ds, x < 10 := fun x hx => hds x (List.mem_cons_of_mem _ hx)
    simp only [List.reverse_cons, List.map_append, List.map_cons, List.map_nil]
    simp only [decimalVal, List.foldl_append, List.foldl_cons, List.foldl_nil]
    have hfold := ih hds'
    simp only [decimalVal] at hfold
    rw [hfold, digitVal_digitChar hd, Nat.ofDigits_cons]
    ring

/-- Parsing the decimal rendering of `n` recovers `n`. -/
theorem decimalVal_natToDecimal (n : Nat) : decimalVal (natToDecimal n) = n := by
  by_cases h : n = 0
  · subst h; decide
  · simp only [natToDecimal, h, if_neg, not_false_iff]
    rw [decimalVal_digits _ fun d hd => Nat.digits_lt_base (by norm_num) hd]
    exact Nat.ofDigits_digits 10 n

/-- `ParseUint` on `%d` output below the width bound succeeds. -/
theorem goParseUint_natToDecimal (bits n : Nat) (h : n < 2 ^ bits) :
    goParseUint bits (natToDecimal n) = some n := by
  have hne := natToDecimal_ne_nil n
  have hdg := natToDecimal_digits n
  simp only [goParseUint, decimalVal_natToDecimal]
  rw [if_pos ⟨hne, List.all_eq_true.mpr hdg⟩, if_pos h]

/-- A decimal digit is not whitespace. -/
theorem goIsDigit_not_space {c : Char} (h : goIsDigit c = true) : goIsSpace c = false := by
  simp only [goIsDigit, Bool.and_eq_true, decide_eq_true_eq] at h
  simp only [goIsSpace, Bool.or_eq_false_iff, decide_eq_false_iff_not]
  omega

/-- A decimal digit is not a line break. -/
theorem goIsDigit_ne_newline {c : Char} (h : goIsDigit c = true) : c ≠ '\n' := by
  intro hc
  subst hc
  simp [goIsDigit] at h

/-- A decimal digit is not a sign character. -/
theorem goIsDigit_ne_sign {c : Char} (h : goIsDigit c = true) : c ≠ '-' ∧ c ≠ '+' := by
  constructor <;> intro hc <;> subst hc <;> simp [goIsDigit] at h

/-- `Atoi` on `%d` output of a value below `2^63` succeeds. -/
theorem goAtoi_natToDecimal (n : Nat) (h : n < 2 ^ 63) :
    goAtoi (natToDecimal n) = some (n : Int) := by
  have hval := goParseUint_natToDecimal 64 n (lt_trans h (by norm_num))
  rcases hd : natToDecimal n with - | ⟨c, cs⟩
  · exact absurd hd (natToDecimal_ne_nil n)
  · have hcdig : goIsDigit c = true := natToDecimal_digits n c (hd ▸ List.mem_cons_self _ _)
    obtain ⟨hm, hp⟩ := goIsDigit_ne_sign hcdig
    rw [hd] at hval
    simp only [goAtoi, if_neg hm, if_neg hp, hval, if_pos h]

/-- `Fields`' scanner consumes a whole non-space word into the accumulator. -/
theorem goFieldsAux_word (w : List Char) (hw : ∀ c ∈ w, goIsSpace c = false) :
    ∀ (rest acc : List Char),
      goFieldsAux (w ++ rest) acc = goFieldsAux rest (w.reverse ++ acc) := by
  induction w with
  | nil => intro rest acc; simp
  | cons c w ih =>
    intro rest acc
    have hc : goIsSpace c = false := hw c (by simp)
    have hw2 : ∀ x ∈ w, goIsSpace x = false := fun x hx => hw x (List.mem_cons_of_mem _ hx)
    simp only [List.cons_append, goFieldsAux, hc, Bool.false_eq_true, if_neg, not_false_iff,
      List.reverse_cons, List.append_assoc, List.singleton_append]
    exact ih hw2 rest (c :: acc)

/-- `Fields` of three space-separated nonempty non-space words. -/
theorem goFields_three (d1 d2 d3 : List Char)
    (h1 : d1 ≠ []) (h2 : d2 ≠ []) (h3 : d3 ≠ [])
    (hd1 : ∀ c ∈ d1, goIsSpace c = false) (hd2 : ∀ c ∈ d2, goIsSpace c = false)
    (hd3 : ∀ c ∈ d3, goIsSpace c = false) :
    goFields (d1 ++ ' ' :: (d2 ++ ' ' :: d3)) = [d1, d2, d3] := by
  have hr1 : d1.reverse ≠ [] := by simpa using h1
  have hr2 : d2.reverse ≠ [] := by simpa using h2
  have hr3 : d3.reverse ≠ [] := by simpa using h3
  have hsp : goIsSpace ' ' = true := by decide
  rw [goFields, goFieldsAux_word d1 hd1]
  rw [List.append_nil]
  simp only [goFieldsAux, hsp, if_pos, if_neg hr1]
  rw [goFieldsAux_word d2 hd2]
  rw [List.append_nil]
  simp only [goFieldsAux, hsp, if_pos, if_neg hr2]
  have hlast : goFieldsAux d3 [] = [d3] := by
    have hx := goFieldsAux_word d3 hd3 [] []
    rw [List.append_nil] at hx
    rw [hx, List.append_nil]
    simp only [goFieldsAux, if_neg hr3]
    rw [List.reverse_reverse]
  rw [hlast, List.reverse_reverse, List.reverse_reverse]

/-- `dropWhile` is the identity when the first character is kept. -/
theorem dropWhile_space_id (l : List Char)
    (h : ∀ c, l.head? = some c → goIsSpace c = false) :
    l.dropWhile goIsSpace = l := by
  rcases l with - | ⟨c, t⟩
  · rfl
  · have := h c rfl
    simp [List.dropWhile_cons, this]

/-- `TrimSpace` is the identity on a line whose first and last characters
are not whitespace. -/
theorem goTrimSpace_id (l : List Char)
    (hhead : ∀ c, l.head? = some c → goIsSpace c = false)
    (hlast : ∀ c, l.reverse.head? = some c → goIsSpace c = false) :
    goTrimSpace l = l := by
  rw [goTrimSpace, dropWhile_space_id l hhead, dropWhile_space_id l.reverse hlast,
    List.reverse_reverse]

/-- `Split` passes over a separator-free token and stops at the
separator. -/
theorem goSplitOnAux_token (sep : Char) (w : List Char) (hw : ∀ c ∈ w, c ≠ sep) :
    ∀ (rest acc : List Char),
      goSplitOnAux sep (w ++ sep :: rest) acc =
        (acc.reverse ++ w) :: goSplitOnAux sep rest [] := by
  induction w with
  | nil => intro rest acc; simp [goSplitOnAux]
  | cons c w ih =>
    intro rest acc
    have hc : c ≠ sep := hw c (by simp)
    have hw2 : ∀ x ∈ w, x ≠ sep := fun x hx => hw x (List.mem_cons_of_mem _ hx)
    simp only [List.cons_append, goSplitOnAux, if_neg hc, List.append_eq]
    rw [ih hw2 rest (c :: acc)]
    simp [List.append_assoc]

/-- `Split` on a single trailing separator yields the line and an empty
tail token. -/
theorem goSplitOn_trailing (sep : Char) (l : List Char) (hl : ∀ c ∈ l, c ≠ sep) :
    goSplitOn sep (l ++ [sep]) = [l, []] := by
  have hx : l ++ [sep] = l ++ sep :: [] := rfl
  rw [goSplitOn, hx, goSplitOnAux_token sep l hl [] []]
  rfl

/-- C7: formatting a completion record with `AppendDone`'s line format and
parsing the result with `GetResume`'s loop returns exactly that record, for
all non-negative fields within their Go integer ranges
(`int` for index and frames, `uint64` for size). -/
theorem c7_resume_roundtrip (idx frames : Int) (size : Nat)
    (hidx0 : 0 ≤ idx) (hidx1 : idx < 2 ^ 63)
    (hfr0 : 0 ≤ frames) (hfr1 : frames < 2 ^ 63)
    (hsz : size < 2 ^ 64) :
    getResume (appendDoneLine ⟨idx, frames, size⟩) = [⟨idx, frames, size⟩] := by
  have hi : intToDecimal idx = natToDecimal idx.toNat := by
    rw [intToDecimal, if_neg (not_lt.mpr hidx0)]
  have hf : intToDecimal frames = natToDecimal frames.toNat := by
    rw [intToDecimal, if_neg (not_lt.mpr hfr0)]
  set d1 := natToDecimal idx.toNat with hd1
  set d2 := natToDecimal frames.toNat with hd2
  set d3 := natToDecimal size with hd3
  have hd1ne : d1 ≠ [] := natToDecimal_ne_nil _
  have hd2ne : d2 ≠ [] := natToDecimal_ne_nil _
  have hd3ne : d3 ≠ [] := natToDecimal_ne_nil _
  have hg1 : ∀ c ∈ d1, goIsDigit c = true := natToDecimal_digits _
  have hg2 : ∀ c ∈ d2, goIsDigit c = true := natToDecimal_digits _
  have hg3 : ∀ c ∈ d3, goIsDigit c = true := natToDecimal_digits _
  set L := d1 ++ ' ' :: (d2 ++ ' ' :: d3) with hL
  have hline : appendDoneLine ⟨idx, frames, size⟩ = L ++ ['\n'] := by
    simp only [appendDoneLine, hi, hf, hL, ← hd1, ← hd2, ← hd3, List.append_assoc,
      List.cons_append]
  have hLchars : ∀ c ∈ L, goIsDigit c = true ∨ c = ' ' := by
    intro c hc
    rw [hL] at hc
    rcases List.mem_append.mp hc with h | h
    · exact Or.inl (hg1 c h)
    · rcases List.mem_cons.mp h with rfl | h
      · exact Or.inr rfl
      · rcases List.mem_append.mp h with h | h
        · exact Or.inl (hg2 c h)
        · rcases List.mem_cons.mp h with rfl | h
          · exact Or.inr rfl
          · exact Or.inl (hg3 c h)
  have hnl : ∀ c ∈ L, c ≠ '\n' := by
    intro c hc
    rcases hLchars c hc with hdig | rfl
    · exact goIsDigit_ne_newline hdig
    · decide
  have hsplit : goSplitOn '\n' (appendDoneLine ⟨idx, frames, size⟩) = [L, []] := by
    rw [hline]
    exact goSplitOn_trailing '\n' L hnl
  have hhead : ∀ c, L.head? = some c → goIsSpace c = false := by
    intro c hc
    rw [hL, List.head?_append_of_ne_nil d1 hd1ne] at hc
    rcases hne : d1 with - | ⟨a, t⟩
    · exact absurd hne hd1ne
    · rw [hne] at hc
      have hca : c = a := by simpa using hc.symm
      subst hca
      exact goIsDigit_not_space (hg1 c (hne ▸ List.mem_cons_self _ _))
  have hd3rne : d3.reverse ≠ [] := by simpa using hd3ne
  have hrev : L.reverse = d3.reverse ++ (' ' :: (d2.reverse ++ (' ' :: d1.reverse))) := by
    rw [hL]
    simp [List.reverse_append, List.reverse_cons, List.append_assoc]
  have hlast : ∀ c, L.reverse.head? = some c → goIsSpace c = false := by
    intro c hc
    rw [hrev, List.head?_append_of_ne_nil _ hd3rne] at hc
    rcases hne : d3.reverse with - | ⟨a, t⟩
    · exact absurd hne hd3rne
    · rw [hne] at hc
      have hca : c = a := by simpa using hc.symm
      subst hca
      have hamem : c ∈ d3 := List.mem_reverse.mp (hne ▸ List.mem_cons_self _ _)
      exact goIsDigit_not_space (hg3 c hamem)
  have htrim : goTrimSpace L = L := goTrimSpace_id L hhead hlast
  have hfields : goFields L = [d1, d2, d3] :=
    goFields_three d1 d2 d3 hd1ne hd2ne hd3ne
      (fun c hc => goIsDigit_not_space (hg1 c hc))
      (fun c hc => goIsDigit_not_space (hg2 c hc))
      (fun c hc => goIsDigit_not_space (hg3 c hc))
  have hp1 : goAtoi d1 = some idx := by
    rw [hd1, goAtoi_natToDecimal idx.toNat (by omega)]
    congr 1
    omega
  have hp2 : goAtoi d2 = some frames := by
    rw [hd2, goAtoi_natToDecimal frames.toNat (by omega)]
    congr 1
    omega
  have hp3 : goParseUint 64 d3 = some size := goParseUint_natToDecimal 64 size hsz
  have hLne : L ≠ [] := by
    rw [hL]
    simp [hd1ne]
  have hparse : parseDoneLine L = some ⟨idx, frames, size⟩ := by
    simp only [parseDoneLine, htrim, if_neg hLne, hfields, hp1, hp2, hp3]
  have hempty : parseDoneLine ([] : List Char) = none := rfl
  rw [getResume, hsplit]
  simp [List.filterMap_cons, hparse, hempty]

/-- C7 witness: round trip of the concrete record `(3, 240, 123456)`. -/
theorem c7_resume_roundtrip_witness :
    ((0 : Int) ≤ 3 ∧ (3 : Int) < 2 ^ 63 ∧ (0 : Int) ≤ 240 ∧ (240 : Int) < 2 ^ 63 ∧
      (123456 : Nat) < 2 ^ 64) ∧
    getResume (appendDoneLine ⟨3, 240, 123456⟩) = [⟨3, 240, 123456⟩] :=
  ⟨⟨by norm_num, by norm_num, by norm_num, by norm_num, by norm_num⟩,
    c7_resume_roundtrip 3 240 123456 (by norm_num) (by norm_num) (by norm_num)
      (by norm_num) (by norm_num)⟩

end Reel
